import Mathlib

/-!
Verification of `wotd` (a Deno CLI that prints a word of the day) against its
natural-language specification.

The development shallowly embeds the core of `src/wotd.ts`:

* the word-list merge step of `loadWordList` (lines 113-120);
* the custom-word-file handling of `loadWordList` (lines 97-110);
* the day-indexed selection `getWordOfTheDay` (lines 130-139);
* the dictionary fetch `fetchWordData` (lines 146-158);
* the box renderer `displayWord` with its inner `pad`, `wrap` and `print`
  closures (lines 164-235);
* the top-level `main` control flow (lines 240-249).

Modelling conventions:

* JavaScript strings are modelled by Lean `String` / `List Char`; lengths are
  counted in characters (the source only manipulates BMP characters, for which
  JS's UTF-16 length agrees).
* The ANSI styling helpers (`bold`, `cyan`, `gray`, `italic`, `magenta`,
  `yellow` from the Deno std colors module) are external collaborators that
  wrap their argument in zero-width escape sequences; following the spec,
  which measures line width excluding styling markers, they are modelled as
  the identity, so all lengths below are visible-character lengths.
* JavaScript numbers appearing in width arithmetic are modelled by `Int`
  (they can go negative, e.g. `contentWidth - 2 - prefix.length`).
* `Date` / `getTime` are modelled by a proleptic-Gregorian civil-day count
  times the number of milliseconds per day, plus the time of day; local time
  is modelled as uniform (no DST discontinuities).
* Fallible operations return `Except String` / `Option`; in particular
  `"─".repeat(n)` throws a `RangeError` for `n < 0`, modelled by `Option`.
-/

/-! ## Data model (interfaces of `src/wotd.ts`, lines 41-67) -/

/-- Interface `Phonetic` (src/wotd.ts lines 42-45). -/
structure Phonetic where
  text : String
  audio : Option String := none
  deriving DecidableEq

/-- Interface `Definition` (src/wotd.ts lines 47-52). -/
structure Definition where
  definition : String
  synonyms : List String
  antonyms : List String
  «example» : Option String := none
  deriving DecidableEq

/-- Interface `Meaning` (src/wotd.ts lines 54-59). -/
structure Meaning where
  partOfSpeech : String
  definitions : List Definition
  synonyms : List String
  antonyms : List String
  deriving DecidableEq

/-- Interface `WordEntry` (src/wotd.ts lines 61-67). -/
structure WordEntry where
  word : String
  phonetic : String
  phonetics : List Phonetic
  meanings : List Meaning
  sourceUrls : List String
  deriving DecidableEq

/-! ## Word-list merge (`loadWordList`, src/wotd.ts lines 113-120) -/

/-- JS `new Set(list)` iteration order: keeps the first occurrence of each
element, in encounter order.  `[...new Set(l)]` is `dedupFirst l`. -/
def dedupFirst {α : Type} [DecidableEq α] (l : List α) : List α :=
  l.foldl (fun acc w => if w ∈ acc then acc else acc ++ [w]) []

/-- Error message thrown by `loadWordList` when the merged list is empty
(src/wotd.ts line 117); this is the spec's `EmptyPoolError`. -/
def emptyPoolMessage : String :=
  "Word list is empty. Cannot select a word of the day."

/-- Merge step of `loadWordList` (src/wotd.ts lines 113-120):
`combinedList = [...new Set([...defaultWords, ...customWords])]`, then an
error is thrown when the combined list is empty. -/
def mergeWordLists (defaultWords customWords : List String) :
    Except String (List String) :=
  let combinedList := dedupFirst (defaultWords ++ customWords)
  if combinedList.isEmpty then .error emptyPoolMessage
  else .ok combinedList

/-! ## Custom word file handling (`loadWordList`, src/wotd.ts lines 97-110) -/

/-- Element of a parsed JSON array.  Scalar elements carry their value;
nested arrays and objects are represented opaquely, since `loadWordList`
never inspects the elements of the custom array at all. -/
inductive JsonItem where
  | str (s : String)
  | num (n : Int)
  | bool (b : Bool)
  | null
  | arr
  | obj
  deriving DecidableEq

/-- JSON value produced by `JSON.parse` on the custom words file.  Only the
top level matters to `loadWordList`: it tests `Array.isArray` and otherwise
discards the value, so object contents carry no payload. -/
inductive Json where
  | str (s : String)
  | num (n : Int)
  | bool (b : Bool)
  | null
  | arr (elems : List JsonItem)
  | obj
  deriving DecidableEq

/-- State of the file `~/.config/wotd/custom_words.json` as seen by
`loadWordList`: absent, present but not valid JSON, or parsed JSON. -/
inductive CustomFile where
  | missing
  | unparsable
  | parsed (j : Json)
  deriving DecidableEq

/-- Custom-word extraction of `loadWordList` (src/wotd.ts lines 97-110).
Returns the `customWords` value together with whether a warning was printed:
a missing file is silently fine; unreadable/unparsable content warns and
leaves `customWords` empty; parsed content that is not an array
(`!Array.isArray(customWords)`) warns and is replaced by `[]`; an array is
kept as is (its elements are NOT checked to be strings). -/
def customWordsOf : CustomFile → List JsonItem × Bool
  | .missing => ([], false)
  | .unparsable => ([], true)
  | .parsed (.arr xs) => (xs, false)
  | .parsed _ => ([], true)

/-- `loadWordList` (src/wotd.ts lines 73-121) with its two I/O sources made
explicit: the fetched default list (a list of strings) and the custom file.
The merged pool is a list of JSON values because the source never checks that
custom array elements are strings. -/
def loadWordListModel (defaultWords : List String) (custom : CustomFile) :
    Except String (List JsonItem) :=
  let customWords := (customWordsOf custom).1
  let combinedList := dedupFirst (defaultWords.map JsonItem.str ++ customWords)
  if combinedList.isEmpty then .error emptyPoolMessage
  else .ok combinedList

/-! ## Day-indexed selection (`getWordOfTheDay`, src/wotd.ts lines 130-139) -/

/-- `1000 * 60 * 60 * 24` (src/wotd.ts line 134). -/
def oneDay : Nat := 1000 * 60 * 60 * 24

/-- Gregorian leap-year test, as implemented by the JS `Date` calendar. -/
def isLeapYear (y : Nat) : Bool :=
  y % 4 == 0 && (y % 100 != 0 || y % 400 == 0)

/-- Length in days of month `m` (1-12) of year `y`, per the JS `Date`
calendar. -/
def daysInMonth (y m : Nat) : Nat :=
  if m = 2 then (if isLeapYear y then 29 else 28)
  else if m = 4 ∨ m = 6 ∨ m = 9 ∨ m = 11 then 30
  else 31

/-- Number of days of year `y` that precede month `m` (1-12). -/
def daysBeforeMonth (y : Nat) : Nat → Nat
  | 0 => 0
  | 1 => 0
  | m + 1 => daysBeforeMonth y m + daysInMonth y (m)

/-- Number of days from the calendar origin to January 1 of year `y`
(proleptic Gregorian, `y ≥ 1`). -/
def daysBeforeYear (y : Nat) : Nat :=
  365 * (y - 1) + (y - 1) / 4 + (y - 1) / 400 - (y - 1) / 100

/-- Civil day number of year `y`, month `m` (1-12), day `d`.  `d = 0` denotes
the day before the first of the month, matching JS `Date` field rollover
(`new Date(y, 0, 0)` is December 31 of `y - 1`). -/
def civilDays (y m d : Nat) : Nat :=
  daysBeforeYear y + daysBeforeMonth y m + d

/-- Model of `Date.getTime()` for the local calendar instant
(year `y`, month `m`, day `d`, `ms` milliseconds past local midnight):
milliseconds since the calendar origin, with uniform local time. -/
def epochMs (y m d ms : Nat) : Nat :=
  civilDays y m d * oneDay + ms

/-- Day-of-year with January 1 = day 1. -/
def dayOfYear (y m d : Nat) : Nat :=
  daysBeforeMonth y m + d

/-- `getWordOfTheDay` (src/wotd.ts lines 130-139).  `now` is the instant
(y, m, d, msOfDay); `startOfYear = new Date(now.getFullYear(), 0, 0)` is day
0 of January of the same year; `dayOfYear = floor((now - startOfYear) /
oneDay)`; the result is `wordList[dayOfYear % wordList.length]`
(`none` models JS `undefined` for an empty list). -/
def getWordOfTheDayModel (y m d msOfDay : Nat) (wordList : List String) :
    Option String :=
  let nowMs := epochMs y m d msOfDay
  let startOfYearMs := epochMs y 1 0 0
  let diff := nowMs - startOfYearMs
  let dayOfYearNow := diff / oneDay
  wordList[dayOfYearNow % wordList.length]?

/-! ## Dictionary fetch (`fetchWordData`, src/wotd.ts lines 146-158) -/

/-- HTTP response of the dictionary API, as observed by `fetchWordData`:
the `ok` flag, the numeric status, and the parsed JSON body. -/
structure ApiResponse where
  ok : Bool
  status : Nat
  body : List WordEntry
  deriving DecidableEq

/-- `fetchWordData` (src/wotd.ts lines 146-158): on a non-ok response it
throws the word-specific message for status 404 and a generic
status-carrying message otherwise; on an ok response it returns the parsed
body. -/
def fetchWordData (word : String) (resp : ApiResponse) :
    Except String (List WordEntry) :=
  if !resp.ok then
    if resp.status = 404 then
      .error ("Sorry, could not find definitions for \"" ++ word ++ "\".")
    else
      .error ("API request failed with status: " ++ toString resp.status)
  else
    .ok resp.body

/-! ## Box renderer (`displayWord`, src/wotd.ts lines 164-235) -/

/-- JS `s.padEnd(n)`: pads with spaces on the right up to length `n`; a
target length that does not exceed the current length (in particular a
negative one) leaves the string unchanged. -/
def jsPadEnd (s : String) (n : Int) : String :=
  if (s.length : Int) < n then
    s ++ String.mk (List.replicate (n - s.length).toNat ' ')
  else s

/-- Inner closure `pad` of `displayWord` (src/wotd.ts line 179):
a leading space, then the content padded to `contentWidth - 1`. -/
def pad (contentWidth : Nat) (s : String) : String :=
  " " ++ jsPadEnd s ((contentWidth : Int) - 1)

/-- Inner closure `print` of `displayWord` (src/wotd.ts line 196): the
vertical border glyphs around an already padded line (styling modelled as
identity). -/
def printLine (s : String) : String :=
  "│" ++ s ++ "│"

/-- JS `text.split(" ")` on the underlying character list: splits at every
single space, keeping empty fragments. -/
def splitOnSpace : List Char → List (List Char)
  | [] => [[]]
  | c :: cs =>
    let r := splitOnSpace cs
    if c = ' ' then [] :: r
    else
      match r with
      | [] => [[c]]
      | h :: t => (c :: h) :: t

/-- JS `text.split(" ")`. -/
def jsSplitSpace (s : String) : List String :=
  (splitOnSpace s.data).map String.mk

/-- Loop of the inner closure `wrap` of `displayWord` (src/wotd.ts lines
183-192), collecting the pushed lines before padding.  `pfx` is the `prefix`
parameter; `maxWidth = contentWidth - 2 - prefix.length`; a word that would
overflow the current line pushes the current line and starts a fresh
`prefix + word` line; otherwise it is appended, space-separated except
immediately after the bare prefix. -/
def rawWrapAux (pfx : String) (maxWidth : Int) :
    List String → String → List String
  | [], currentLine => [currentLine]
  | w :: ws, currentLine =>
    if (currentLine.length : Int) + w.length + 1 > maxWidth then
      currentLine :: rawWrapAux pfx maxWidth ws (pfx ++ w)
    else
      rawWrapAux pfx maxWidth ws
        (currentLine ++ (if currentLine == pfx then "" else " ") ++ w)

/-- Lines of `wrap text prefix` before padding. -/
def rawWrap (contentWidth : Nat) (text pfx : String) : List String :=
  rawWrapAux pfx ((contentWidth : Int) - 2 - pfx.length) (jsSplitSpace text) pfx

/-- Inner closure `wrap` of `displayWord` (src/wotd.ts lines 180-194).  The
source pushes `pad(currentLine)` at every push site; equivalently, `pad` is
mapped over the raw pushed lines. -/
def wrap (contentWidth : Nat) (text pfx : String) : List String :=
  (rawWrap contentWidth text pfx).map (pad contentWidth)

/-- Definition loop of `displayWord` (src/wotd.ts lines 209-216): the
numbered, wrapped definition text, then the wrapped example when present. -/
def renderDefs (contentWidth : Nat) : Nat → List Definition → List String
  | _, [] => []
  | defIndex, d :: ds =>
    (wrap contentWidth (toString (defIndex + 1) ++ ". " ++ d.definition) "  ").map
        printLine
      ++ (match d.«example» with
          | some ex =>
            (wrap contentWidth ("e.g. \"" ++ ex ++ "\"") "    ").map printLine
          | none => [])
      ++ renderDefs contentWidth (defIndex + 1) ds

/-- Body printed for one meaning (src/wotd.ts lines 207-216): the
part-of-speech label, then its definitions. -/
def renderMeaning (contentWidth : Nat) (m : Meaning) : List String :=
  printLine (pad contentWidth m.partOfSpeech) :: renderDefs contentWidth 0 m.definitions

/-- Meaning loop of `displayWord` (src/wotd.ts lines 207-220): a blank
spacer line after every meaning except the last. -/
def renderMeanings (contentWidth : Nat) : List Meaning → List String
  | [] => []
  | [m] => renderMeaning contentWidth m
  | m :: rest =>
    renderMeaning contentWidth m ++ [printLine (pad contentWidth "")]
      ++ renderMeanings contentWidth rest

/-- Thesaurus source list (src/wotd.ts lines 223-225): meaning-level
synonyms, then definition-level synonyms, deduplicated first-seen. -/
def synonymsOf (entry : WordEntry) : List String :=
  dedupFirst
    (entry.meanings.flatMap (fun m => m.synonyms)
      ++ entry.meanings.flatMap (fun m => m.definitions.flatMap (fun d => d.synonyms)))

/-- Lines printed by `displayWord` for `entry` at a nonnegative
`contentWidth` (src/wotd.ts lines 174-234), styling modelled as identity. -/
def renderLines (entry : WordEntry) (contentWidth : Nat) : List String :=
  let line := String.mk (List.replicate contentWidth '─')
  let topBorder := "┌" ++ line ++ "┐"
  let bottomBorder := "└" ++ line ++ "┘"
  let separator := "├" ++ line ++ "┤"
  let phoneticText :=
    match entry.phonetics.find? (fun p => p.text != "") with
    | some p => p.text
    | none => entry.phonetic
  [topBorder]
    ++ [printLine (pad contentWidth (entry.word ++ "  " ++ phoneticText))]
    ++ [separator]
    ++ renderMeanings contentWidth entry.meanings
    ++ (let synonyms := synonymsOf entry
        if synonyms.isEmpty then []
        else
          [separator] ++ [printLine (pad contentWidth "Thesaurus")]
            ++ (wrap contentWidth (String.intercalate ", " synonyms) "  ").map
                printLine)
    ++ [bottomBorder]

/-- `displayWord` (src/wotd.ts lines 164-235).  Empty data prints only a
notice and renders no box; otherwise `contentWidth = min(80, availableWidth
- 4)` and, when that is negative, `"─".repeat(contentWidth)` throws a
`RangeError` (modelled as `none`). -/
def displayWordModel (data : List WordEntry) (availableWidth : Int) :
    Option (List String) :=
  match data with
  | [] => some []
  | entry :: _ =>
    let contentWidth : Int := min 80 (availableWidth - 4)
    if contentWidth < 0 then none
    else some (renderLines entry contentWidth.toNat)

/-- Tail of `main` (src/wotd.ts lines 244-247): fetch, then display; a fetch
error is caught before any rendering, and a rendering `RangeError` is caught
with its own message. -/
def runFetchAndDisplay (word : String) (resp : ApiResponse)
    (availableWidth : Int) : Except String (List String) :=
  match fetchWordData word resp with
  | .error e => .error e
  | .ok data =>
    match displayWordModel data availableWidth with
    | some lines => .ok lines
    | none => .error "Invalid count value"

example : jsSplitSpace "a  b c" = ["a", "", "b", "c"] := by decide
example : jsSplitSpace "" = [""] := by decide
example : rawWrap 10 "abcdefgh" "" = ["", "abcdefgh"] := by decide
example : rawWrap 10 "ab cd" "" = ["ab cd"] := by decide
example : rawWrap 4 "ab" "    " = ["    ", "    ab"] := by decide
example : wrap 10 "ab" "" = [" ab       "] := by decide
example : pad 10 "ab" = " ab       " := by decide
example : printLine (pad 10 "ab") = "│ ab       │" := by decide

/-! ## Day selection: claims C3 and C4 -/

theorem daysBeforeMonth_one (y : Nat) : daysBeforeMonth y 1 = 0 := rfl

/-- Day-of-year computed by `getWordOfTheDay` from the clock equals the civil
day-of-year (January 1 = day 1), for any time of day. -/
theorem epochDiff_day (y m d t : Nat) (ht : t < oneDay) :
    (epochMs y m d t - epochMs y 1 0 0) / oneDay = dayOfYear y m d := by
  unfold epochMs civilDays dayOfYear
  rw [daysBeforeMonth_one]
  unfold oneDay at *
  generalize daysBeforeYear y = A
  generalize daysBeforeMonth y m = B
  omega

theorem getWordOfTheDayModel_eq (y m d t : Nat) (wl : List String)
    (ht : t < oneDay) :
    getWordOfTheDayModel y m d t wl = wl[dayOfYear y m d % wl.length]? := by
  simp only [getWordOfTheDayModel]
  rw [epochDiff_day y m d t ht]

/-- C3: for every date and every non-empty word list, `getWordOfTheDay`
returns the list element at index `dayOfYear mod poolSize`, where January 1
is day 1; in particular a date with day-of-year 3 and the pool
`["alpha", "beta"]` selects `"beta"`. -/
theorem getWordOfTheDay_day_index (y m d msOfDay : Nat) (wordList : List String)
    (ht : msOfDay < oneDay) (_hne : wordList ≠ []) :
    getWordOfTheDayModel y m d msOfDay wordList
        = wordList[dayOfYear y m d % wordList.length]?
      ∧ dayOfYear y 1 1 = 1
      ∧ getWordOfTheDayModel y 1 3 msOfDay ["alpha", "beta"] = some "beta" := by
  refine ⟨getWordOfTheDayModel_eq y m d msOfDay wordList ht, rfl, ?_⟩
  rw [getWordOfTheDayModel_eq y 1 3 msOfDay ["alpha", "beta"] ht]
  have h3 : dayOfYear y 1 3 = 3 := rfl
  rw [h3]
  decide

theorem getWordOfTheDay_day_index_witness :
    getWordOfTheDayModel 2024 1 3 0 ["alpha", "beta"]
        = ["alpha", "beta"][dayOfYear 2024 1 3 % ["alpha", "beta"].length]?
      ∧ dayOfYear 2024 1 1 = 1
      ∧ getWordOfTheDayModel 2024 1 3 0 ["alpha", "beta"] = some "beta" :=
  getWordOfTheDay_day_index 2024 1 3 0 ["alpha", "beta"] (by decide) (by decide)

/-- C4: word selection is deterministic within a calendar day: the model is a
pure function of the calendar date and the pool (it takes no random seed and
no process identity), and the selected word does not depend on the time of
day within the date. -/
theorem getWordOfTheDay_deterministic (y m d t1 t2 : Nat) (wl : List String)
    (h1 : t1 < oneDay) (h2 : t2 < oneDay) :
    getWordOfTheDayModel y m d t1 wl = getWordOfTheDayModel y m d t2 wl := by
  rw [getWordOfTheDayModel_eq y m d t1 wl h1, getWordOfTheDayModel_eq y m d t2 wl h2]

theorem getWordOfTheDay_deterministic_witness :
    getWordOfTheDayModel 2024 6 15 0 ["alpha", "beta", "gamma"]
      = getWordOfTheDayModel 2024 6 15 86399999 ["alpha", "beta", "gamma"] :=
  getWordOfTheDay_deterministic 2024 6 15 0 86399999 ["alpha", "beta", "gamma"]
    (by decide) (by decide)

/-! ## Dictionary fetch: claim C7 -/

/-- C7: `fetchWordData` fails exactly on a non-ok response; a 404 failure
message contains the word itself, any other failure message ends with the
numeric status, and on failure `main` surfaces the fetch error and never
reaches `displayWord`. -/
theorem fetchWordData_error_behavior (word : String) (resp : ApiResponse)
    (availableWidth : Int) :
    ((∃ e, fetchWordData word resp = .error e) ↔ resp.ok = false)
      ∧ (resp.ok = false → resp.status = 404 →
          ∃ pre post, fetchWordData word resp = .error (pre ++ word ++ post))
      ∧ (resp.ok = false → resp.status ≠ 404 →
          ∃ pre, fetchWordData word resp = .error (pre ++ toString resp.status))
      ∧ (resp.ok = false →
          ∃ e, fetchWordData word resp = .error e
            ∧ runFetchAndDisplay word resp availableWidth = .error e) := by
  refine ⟨⟨?_, ?_⟩, ?_, ?_, ?_⟩
  · rintro ⟨e, he⟩
    cases h : resp.ok
    · rfl
    · simp [fetchWordData, h] at he
  · intro hok
    by_cases h4 : resp.status = 404
    · exact ⟨"Sorry, could not find definitions for \"" ++ word ++ "\".",
        by simp [fetchWordData, hok, h4]⟩
    · exact ⟨"API request failed with status: " ++ toString resp.status,
        by simp [fetchWordData, hok, h4]⟩
  · intro hok h4
    exact ⟨"Sorry, could not find definitions for \"", "\".",
      by simp [fetchWordData, hok, h4]⟩
  · intro hok h4
    exact ⟨"API request failed with status: ", by simp [fetchWordData, hok, h4]⟩
  · intro hok
    by_cases h4 : resp.status = 404
    · have hf : fetchWordData word resp
          = .error ("Sorry, could not find definitions for \"" ++ word ++ "\".") := by
        simp [fetchWordData, hok, h4]
      exact ⟨_, hf, by simp [runFetchAndDisplay, hf]⟩
    · have hf : fetchWordData word resp
          = .error ("API request failed with status: " ++ toString resp.status) := by
        simp [fetchWordData, hok, h4]
      exact ⟨_, hf, by simp [runFetchAndDisplay, hf]⟩

theorem fetchWordData_error_behavior_witness :
    ∃ pre post,
      fetchWordData "zzzqx" ⟨false, 404, []⟩ = .error (pre ++ "zzzqx" ++ post) :=
  (fetchWordData_error_behavior "zzzqx" ⟨false, 404, []⟩ 80).2.1 rfl rfl

/-! ## Render width handling: claim C6 -/

/-- Concrete minimal entry used in counterexamples. -/
def sampleEntry : WordEntry :=
  { word := "erudite", phonetic := "", phonetics := [], meanings := [],
    sourceUrls := [] }

/-- C6 counterexample: at `availableWidth = 2` the renderer does not clamp;
`contentWidth` is negative and `"─".repeat(contentWidth)` throws a
`RangeError`, so nothing is rendered. -/
theorem displayWord_small_width_crashes :
    displayWordModel [sampleEntry] 2 = none := by decide

/-- C6 (amended): `contentWidth = min(80, availableWidth - 4)` and rendering
succeeds for `availableWidth ≥ 4`; for `availableWidth < 4` the negative
repeat count makes rendering throw instead of clamping. -/
theorem displayWord_width_behavior (entry : WordEntry) (rest : List WordEntry)
    (availableWidth : Int) :
    (4 ≤ availableWidth →
        displayWordModel (entry :: rest) availableWidth
          = some (renderLines entry (min 80 (availableWidth - 4)).toNat))
      ∧ (availableWidth < 4 →
          displayWordModel (entry :: rest) availableWidth = none) := by
  constructor
  · intro h
    have hcw : ¬ (min (80 : Int) (availableWidth - 4) < 0) := by omega
    simp [displayWordModel, hcw]
  · intro h
    have hcw : min (80 : Int) (availableWidth - 4) < 0 := by omega
    simp [displayWordModel, hcw]

theorem displayWord_width_behavior_witness :
    displayWordModel [sampleEntry] 44 = some (renderLines sampleEntry 40)
      ∧ displayWordModel [sampleEntry] 2 = none :=
  ⟨by
    have h := (displayWord_width_behavior sampleEntry [] 44).1 (by decide)
    simpa using h,
   (displayWord_width_behavior sampleEntry [] 2).2 (by decide)⟩

/-! ## Deduplication: claims C5, C10, C8 -/

/-- Recursive view of JS `Set` insertion: `dedupFrom seen l` keeps the first
occurrence of each element of `l` not already in `seen`. -/
def dedupFrom {α : Type} [DecidableEq α] (seen : List α) : List α → List α
  | [] => []
  | w :: ws => if w ∈ seen then dedupFrom seen ws else w :: dedupFrom (seen ++ [w]) ws

theorem foldl_dedup_eq_dedupFrom {α : Type} [DecidableEq α] (c : List α) :
    ∀ acc : List α,
      c.foldl (fun acc w => if w ∈ acc then acc else acc ++ [w]) acc
        = acc ++ dedupFrom acc c := by
  induction c with
  | nil => intro acc; simp [dedupFrom]
  | cons w c ih =>
    intro acc
    by_cases hw : w ∈ acc
    · simp only [List.foldl_cons, dedupFrom, if_pos hw]
      exact ih acc
    · simp only [List.foldl_cons, dedupFrom, if_neg hw]
      rw [ih (acc ++ [w])]
      simp

theorem dedupFirst_eq_dedupFrom {α : Type} [DecidableEq α] (l : List α) :
    dedupFirst l = dedupFrom [] l := by
  unfold dedupFirst
  rw [foldl_dedup_eq_dedupFrom]
  simp

theorem mem_dedupFrom {α : Type} [DecidableEq α] (c : List α) :
    ∀ seen x, x ∈ dedupFrom seen c ↔ x ∈ c ∧ x ∉ seen := by
  induction c with
  | nil => intro seen x; simp [dedupFrom]
  | cons w c ih =>
    intro seen x
    by_cases hw : w ∈ seen
    · simp only [dedupFrom, if_pos hw, ih, List.mem_cons]
      constructor
      · rintro ⟨hc, hs⟩; exact ⟨Or.inr hc, hs⟩
      · rintro ⟨hwc, hs⟩
        rcases hwc with rfl | hc
        · exact absurd hw hs
        · exact ⟨hc, hs⟩
    · simp only [dedupFrom, if_neg hw, List.mem_cons, ih, List.mem_append,
        List.mem_singleton]
      constructor
      · rintro (rfl | ⟨hc, hs⟩)
        · exact ⟨Or.inl rfl, hw⟩
        · exact ⟨Or.inr hc, fun h => hs (Or.inl h)⟩
      · rintro ⟨rfl | hc, hs⟩
        · exact Or.inl rfl
        · by_cases hxw : x = w
          · exact Or.inl hxw
          · exact Or.inr ⟨hc, by simp [hs, hxw]⟩

theorem nodup_dedupFrom {α : Type} [DecidableEq α] (c : List α) :
    ∀ seen : List α, (dedupFrom seen c).Nodup := by
  induction c with
  | nil => intro seen; simp [dedupFrom]
  | cons w c ih =>
    intro seen
    by_cases hw : w ∈ seen
    · simpa [dedupFrom, if_pos hw] using ih seen
    · simp only [dedupFrom, if_neg hw, List.nodup_cons]
      refine ⟨?_, ih (seen ++ [w])⟩
      rw [mem_dedupFrom]
      rintro ⟨-, hns⟩
      exact hns (by simp)

theorem mem_dedupFirst {α : Type} [DecidableEq α] (l : List α) (x : α) :
    x ∈ dedupFirst l ↔ x ∈ l := by
  rw [dedupFirst_eq_dedupFrom, mem_dedupFrom]
  simp

theorem nodup_dedupFirst {α : Type} [DecidableEq α] (l : List α) :
    (dedupFirst l).Nodup := by
  rw [dedupFirst_eq_dedupFrom]; exact nodup_dedupFrom l []

theorem dedupFirst_length {α : Type} [DecidableEq α] (l : List α) :
    (dedupFirst l).length = l.toFinset.card := by
  have h1 : (dedupFirst l).toFinset = l.toFinset := by
    ext x
    simp [List.mem_toFinset, mem_dedupFirst]
  rw [← h1, List.toFinset_card_of_nodup (nodup_dedupFirst l)]

theorem dedupFirst_eq_nil_iff {α : Type} [DecidableEq α] (l : List α) :
    dedupFirst l = [] ↔ l = [] := by
  constructor
  · intro h
    cases hl : l with
    | nil => rfl
    | cons x xs =>
      have hx : x ∈ dedupFirst l := by rw [mem_dedupFirst, hl]; simp
      rw [h] at hx
      exact absurd hx (List.not_mem_nil x)
  · rintro rfl; rfl

/-- C5: the merged pool's size is the number of distinct strings across both
lists (case-sensitive), and the empty-pool error is raised exactly when the
deduplicated concatenation is empty, i.e. exactly when both inputs are
empty. -/
theorem mergeWordLists_size_and_empty (d c : List String) :
    (∀ p, mergeWordLists d c = .ok p → p.length = (d.toFinset ∪ c.toFinset).card)
      ∧ (mergeWordLists d c = .error emptyPoolMessage ↔ dedupFirst (d ++ c) = [])
      ∧ (dedupFirst (d ++ c) = [] ↔ d = [] ∧ c = []) := by
  refine ⟨?_, ?_, ?_⟩
  · intro p hp
    unfold mergeWordLists at hp
    by_cases he : (dedupFirst (d ++ c)).isEmpty
    · simp [he] at hp
    · simp only [he, Bool.false_eq_true, if_false, Except.ok.injEq] at hp
      subst hp
      rw [dedupFirst_length, List.toFinset_append]
  · unfold mergeWordLists
    by_cases he : (dedupFirst (d ++ c)).isEmpty
    · simp [he, List.isEmpty_iff.mp he]
    · simp only [he, Bool.false_eq_true, if_false]
      constructor
      · intro h; exact absurd h (by simp)
      · intro h; exact absurd (List.isEmpty_iff.mpr h) (by simp [he])
  · rw [dedupFirst_eq_nil_iff, List.append_eq_nil]

theorem mergeWordLists_size_and_empty_witness :
    ((["alpha", "alpha"] : List String).toFinset ∪ (["beta"] : List String).toFinset).card = 2
      ∧ mergeWordLists [] [] = .error emptyPoolMessage := by
  constructor
  · have h := (mergeWordLists_size_and_empty ["alpha", "alpha"] ["beta"]).1
      ["alpha", "beta"] rfl
    exact h.symm.trans rfl
  · exact ((mergeWordLists_size_and_empty [] []).2.1).mpr (by decide)

theorem dedupFrom_congr {α : Type} [DecidableEq α] (c : List α) :
    ∀ s₁ s₂, (∀ x, x ∈ s₁ ↔ x ∈ s₂) → dedupFrom s₁ c = dedupFrom s₂ c := by
  induction c with
  | nil => intro s₁ s₂ _; rfl
  | cons w c ih =>
    intro s₁ s₂ h
    by_cases hw : w ∈ s₁
    · rw [dedupFrom, dedupFrom, if_pos hw, if_pos ((h w).mp hw)]
      exact ih s₁ s₂ h
    · rw [dedupFrom, dedupFrom, if_neg hw, if_neg (fun hw2 => hw ((h w).mpr hw2))]
      refine congrArg _ (ih _ _ ?_)
      intro x
      simp only [List.mem_append, List.mem_singleton, h x]

theorem dedupFrom_append {α : Type} [DecidableEq α] (d : List α) :
    ∀ (c s : List α),
      dedupFrom s (d ++ c) = dedupFrom s d ++ dedupFrom (s ++ d) c := by
  induction d with
  | nil =>
    intro c s
    rw [List.nil_append, List.append_nil]
    rfl
  | cons w d ih =>
    intro c s
    by_cases hw : w ∈ s
    · rw [List.cons_append, dedupFrom, if_pos hw, dedupFrom, if_pos hw, ih c s]
      refine congrArg _ (dedupFrom_congr c _ _ ?_)
      intro x
      simp only [List.mem_append, List.mem_cons]
      constructor
      · rintro (hs | hd)
        · exact Or.inl hs
        · exact Or.inr (Or.inr hd)
      · rintro (hs | rfl | hd)
        · exact Or.inl hs
        · exact Or.inl hw
        · exact Or.inr hd
    · rw [List.cons_append, dedupFrom, if_neg hw, dedupFrom, if_neg hw, ih c (s ++ [w])]
      rw [List.cons_append, List.append_assoc, List.singleton_append]

theorem dedupFrom_filter_shift {α : Type} [DecidableEq α] (c : List α) (s : List α) :
    ∀ t, dedupFrom (s ++ t) c
      = dedupFrom t (c.filter (fun w => decide (w ∉ s))) := by
  induction c with
  | nil => intro t; rfl
  | cons w c ih =>
    intro t
    by_cases hws : w ∈ s
    · rw [dedupFrom, if_pos (List.mem_append.mpr (Or.inl hws))]
      rw [List.filter_cons_of_neg (by simp [hws])]
      exact ih t
    · rw [List.filter_cons_of_pos (by simp [hws])]
      by_cases hwt : w ∈ t
      · rw [dedupFrom, if_pos (List.mem_append.mpr (Or.inr hwt)), dedupFrom,
          if_pos hwt]
        exact ih t
      · have hwst : w ∉ s ++ t := by simp [hws, hwt]
        rw [dedupFrom, if_neg hwst, dedupFrom, if_neg hwt,
          List.append_assoc]
        exact congrArg _ (ih (t ++ [w]))

/-- C10: the merged pool is in first-occurrence order: the deduplicated
defaults (in their original order) followed by the custom words not already
among the defaults (in their first-occurrence order); a duplicate keeps the
position of its first occurrence. -/
theorem merged_pool_first_occurrence_order (d c : List String) :
    dedupFirst (d ++ c)
        = dedupFirst d ++ dedupFirst (c.filter (fun w => decide (w ∉ d)))
      ∧ (∀ p, mergeWordLists d c = .ok p →
          p = dedupFirst d ++ dedupFirst (c.filter (fun w => decide (w ∉ d)))) := by
  have hmain : dedupFirst (d ++ c)
      = dedupFirst d ++ dedupFirst (c.filter (fun w => decide (w ∉ d))) := by
    rw [dedupFirst_eq_dedupFrom, dedupFirst_eq_dedupFrom, dedupFirst_eq_dedupFrom]
    rw [dedupFrom_append d c [], List.nil_append]
    have h := dedupFrom_filter_shift c d []
    rw [List.append_nil] at h
    rw [h]
  refine ⟨hmain, ?_⟩
  intro p hp
  unfold mergeWordLists at hp
  by_cases he : (dedupFirst (d ++ c)).isEmpty
  · simp [he] at hp
  · simp only [he, Bool.false_eq_true, if_false, Except.ok.injEq] at hp
    rw [← hp, hmain]

theorem merged_pool_first_occurrence_order_witness :
    (["b", "a", "c", "d"] : List String)
      = dedupFirst ["b", "a", "b"]
        ++ dedupFirst ((["c", "a", "d", "c"] : List String).filter
            (fun w => decide (w ∉ (["b", "a", "b"] : List String)))) :=
  (merged_pool_first_occurrence_order ["b", "a", "b"] ["c", "a", "d", "c"]).2
    ["b", "a", "c", "d"] rfl

/-- Custom files whose content the spec calls malformed and the code warns
about: unreadable/unparsable content, or parsed content that is not an
array. -/
def isMalformedCustom : CustomFile → Bool
  | .missing => false
  | .unparsable => true
  | .parsed (.arr _) => false
  | .parsed _ => true

theorem dedupFrom_of_nodup {α : Type} [DecidableEq α] (c : List α) :
    ∀ seen, c.Nodup → (∀ x ∈ c, x ∉ seen) → dedupFrom seen c = c := by
  induction c with
  | nil => intro seen _ _; rfl
  | cons w c ih =>
    intro seen hnd hdisj
    have hw : w ∉ seen := hdisj w (by simp)
    rw [dedupFrom, if_neg hw]
    refine congrArg _ (ih (seen ++ [w]) (List.Nodup.of_cons hnd) ?_)
    intro x hx
    simp only [List.mem_append, List.mem_singleton]
    rintro (hs | rfl)
    · exact hdisj x (by simp [hx]) hs
    · exact (List.nodup_cons.mp hnd).1 hx

theorem dedupFirst_of_nodup {α : Type} [DecidableEq α] (l : List α)
    (h : l.Nodup) : dedupFirst l = l := by
  rw [dedupFirst_eq_dedupFrom]
  exact dedupFrom_of_nodup l [] h (by simp)

/-- C8 counterexample: a custom array whose elements are not strings is not
a sequence of strings, yet the code accepts it unchanged with no warning:
the pool gains the non-string element. -/
theorem customList_nonstring_array_kept :
    (customWordsOf (.parsed (.arr [JsonItem.num 1]))).2 = false
      ∧ loadWordListModel ["alpha"] (.parsed (.arr [JsonItem.num 1]))
          = .ok [JsonItem.str "alpha", JsonItem.num 1] :=
  ⟨rfl, rfl⟩

/-- C8 (amended): a custom source whose content is unreadable or not a JSON
array is treated as an empty custom list with a warning, and the pool is
exactly the (deduplicated) default list; element types of an array are never
checked. -/
theorem loadWordList_malformed_custom (defaults : List String)
    (custom : CustomFile) (hmal : isMalformedCustom custom = true)
    (hne : defaults ≠ []) :
    customWordsOf custom = ([], true)
      ∧ loadWordListModel defaults custom
          = .ok (dedupFirst (defaults.map JsonItem.str))
      ∧ (defaults.Nodup →
          loadWordListModel defaults custom = .ok (defaults.map JsonItem.str)) := by
  have hcw : customWordsOf custom = ([], true) := by
    cases custom with
    | missing => simp [isMalformedCustom] at hmal
    | unparsable => rfl
    | parsed j => cases j <;> first | rfl | simp [isMalformedCustom] at hmal
  have hmapne : defaults.map JsonItem.str ≠ [] := by
    cases defaults with
    | nil => exact absurd rfl hne
    | cons x xs => simp
  have hdne : dedupFirst (defaults.map JsonItem.str) ≠ [] := by
    rw [Ne, dedupFirst_eq_nil_iff]
    exact hmapne
  have hload : loadWordListModel defaults custom
      = .ok (dedupFirst (defaults.map JsonItem.str)) := by
    unfold loadWordListModel
    rw [hcw]
    simp only [List.append_nil]
    rw [if_neg (by simp [List.isEmpty_iff, hdne])]
  refine ⟨hcw, hload, ?_⟩
  intro hnd
  rw [hload, dedupFirst_of_nodup _ (hnd.map (fun a b h => JsonItem.str.inj h))]

theorem loadWordList_malformed_custom_witness :
    customWordsOf (.parsed .obj) = ([], true)
      ∧ loadWordListModel ["alpha"] (.parsed .obj)
          = .ok (dedupFirst (["alpha"].map JsonItem.str))
      ∧ ((["alpha"] : List String).Nodup →
          loadWordListModel ["alpha"] (.parsed .obj)
            = .ok (["alpha"].map JsonItem.str)) :=
  loadWordList_malformed_custom ["alpha"] (.parsed .obj) rfl (by decide)

/-! ## Word wrap: claims C2 and C9 -/

theorem rawWrapAux_line_bound (pfx : String) (maxW B : Int) (hmB : maxW ≤ B)
    (allW : List String) :
    ∀ (ws : List String) (cur : String),
      (∀ w ∈ ws, w ∈ allW) →
      ((cur.length : Int) ≤ B ∨ ∃ w ∈ allW, cur = pfx ++ w) →
      ∀ l ∈ rawWrapAux pfx maxW ws cur,
        (l.length : Int) ≤ B ∨ ∃ w ∈ allW, l = pfx ++ w := by
  intro ws
  induction ws with
  | nil =>
    intro cur _ hcur l hl
    rw [rawWrapAux, List.mem_singleton] at hl
    subst hl
    exact hcur
  | cons w ws ih =>
    intro cur hsub hcur l hl
    rw [rawWrapAux] at hl
    by_cases hc : (cur.length : Int) + w.length + 1 > maxW
    · rw [if_pos hc] at hl
      rcases List.mem_cons.mp hl with rfl | hl2
      · exact hcur
      · refine ih (pfx ++ w) (fun x hx => hsub x (List.mem_cons_of_mem w hx))
          (Or.inr ⟨w, hsub w (List.mem_cons_self w ws), rfl⟩) l hl2
    · rw [if_neg hc] at hl
      refine ih _ (fun x hx => hsub x (List.mem_cons_of_mem w hx)) ?_ l hl
      left
      push_neg at hc
      rw [String.length_append, String.length_append]
      by_cases hcp : (cur == pfx) = true
      · rw [if_pos hcp]
        have h0 : ("" : String).length = 0 := rfl
        omega
      · rw [if_neg hcp]
        have h1 : (" " : String).length = 1 := rfl
        omega

/-- C2 counterexample: with a prefix longer than `contentWidth - 2` the wrap
loop emits a bare-prefix line that exceeds the bound yet contains no word of
the text, so the claimed exception (a lone overlong word) does not cover
it. -/
theorem wrap_line_length_counterexample :
    ¬ (∀ l ∈ rawWrap 4 "ab" "    ",
        (l.length : Int) ≤ (4 : Int) - 2
          ∨ ∃ w ∈ jsSplitSpace "ab", l = "    " ++ w) := by
  decide

/-- C2 (amended): provided the prefix itself fits
(`prefix.length ≤ contentWidth - 2`), every line produced by `wrap` before
padding either is at most `contentWidth - 2` characters long or consists of
the prefix followed by a single word of the text, placed alone on its line
and allowed to overflow; breaking happens only at space boundaries. -/
theorem wrap_line_length_bound (contentWidth : Nat) (text pfx : String)
    (hpfx : (pfx.length : Int) ≤ (contentWidth : Int) - 2) :
    ∀ l ∈ rawWrap contentWidth text pfx,
      (l.length : Int) ≤ (contentWidth : Int) - 2
        ∨ ∃ w ∈ jsSplitSpace text, l = pfx ++ w := by
  intro l hl
  exact rawWrapAux_line_bound pfx ((contentWidth : Int) - 2 - pfx.length)
    ((contentWidth : Int) - 2) (by omega) (jsSplitSpace text) (jsSplitSpace text)
    pfx (fun w hw => hw) (Or.inl hpfx) l hl

theorem wrap_line_length_bound_witness :
    (("  " : String).length : Int) ≤ (10 : Int) - 2
      ∨ ∃ w ∈ jsSplitSpace "alpha beta", ("  " : String) = "  " ++ w :=
  wrap_line_length_bound 10 "alpha beta" "  " (by decide) "  " (by decide)

/-- Inverse of `split(" ")`: joins fragments with single spaces. -/
def joinWords : List String → String
  | [] => ""
  | [w] => w
  | w :: ws => w ++ " " ++ joinWords ws

def joinSpace : List (List Char) → List Char
  | [] => []
  | [x] => x
  | x :: xs => x ++ ' ' :: joinSpace xs

theorem splitOnSpace_ne_nil (l : List Char) : splitOnSpace l ≠ [] := by
  cases l with
  | nil => simp [splitOnSpace]
  | cons c cs =>
    rw [splitOnSpace]
    by_cases hc : c = ' '
    · simp [hc]
    · simp only [if_neg hc]
      cases splitOnSpace cs <;> simp

theorem joinSpace_cons_cons (x y : List Char) (ys : List (List Char)) :
    joinSpace (x :: y :: ys) = x ++ ' ' :: joinSpace (y :: ys) := rfl

theorem joinWords_cons_cons (w v : String) (ws : List String) :
    joinWords (w :: v :: ws) = w ++ " " ++ joinWords (v :: ws) := rfl

theorem joinSpace_splitOnSpace (l : List Char) :
    joinSpace (splitOnSpace l) = l := by
  induction l with
  | nil => rfl
  | cons c cs ih =>
    rw [splitOnSpace]
    by_cases hc : c = ' '
    · rw [if_pos hc]
      cases hr : splitOnSpace cs with
      | nil => exact absurd hr (splitOnSpace_ne_nil cs)
      | cons h t =>
        rw [hr] at ih
        rw [joinSpace_cons_cons, hc]
        simp only [List.nil_append]
        rw [ih]
    · rw [if_neg hc]
      cases hr : splitOnSpace cs with
      | nil => exact absurd hr (splitOnSpace_ne_nil cs)
      | cons h t =>
        rw [hr] at ih
        cases t with
        | nil =>
          rw [joinSpace] at ih ⊢
          rw [ih]
        | cons h2 t2 =>
          rw [joinSpace_cons_cons] at ih ⊢
          rw [List.cons_append, ih]

theorem joinWords_map_mk (xss : List (List Char)) :
    joinWords (xss.map String.mk) = String.mk (joinSpace xss) := by
  induction xss with
  | nil => rfl
  | cons x xs ih =>
    cases xs with
    | nil => rfl
    | cons y ys =>
      rw [List.map_cons, List.map_cons, joinWords_cons_cons, joinSpace_cons_cons]
      rw [List.map_cons] at ih
      rw [ih]
      show String.mk ((x ++ [' ']) ++ joinSpace (y :: ys)) = _
      exact congrArg String.mk (by simp)

theorem joinWords_jsSplitSpace (s : String) :
    joinWords (jsSplitSpace s) = s := by
  unfold jsSplitSpace
  rw [joinWords_map_mk, joinSpace_splitOnSpace]

theorem jsSplitSpace_head (s : String) (c : Char) (hc : s.data.head? = some c)
    (hcs : c ≠ ' ') :
    ∃ w1 rest, jsSplitSpace s = w1 :: rest ∧ 0 < w1.length := by
  unfold jsSplitSpace
  cases hd : s.data with
  | nil => rw [hd] at hc; simp at hc
  | cons x xs =>
    rw [hd] at hc
    simp only [List.head?_cons, Option.some.injEq] at hc
    subst hc
    rw [splitOnSpace, if_neg hcs]
    cases hr : splitOnSpace xs with
    | nil => exact absurd hr (splitOnSpace_ne_nil xs)
    | cons h t =>
      exact ⟨String.mk (x :: h), t.map String.mk, by simp, by
        show 0 < (x :: h).length
        simp⟩

def sumLenPlus (ws : List String) : Nat :=
  (ws.map (fun w => w.length + 1)).sum

theorem sumLenPlus_of_ne_nil (ws : List String) (h : ws ≠ []) :
    sumLenPlus ws = (joinWords ws).length + 1 := by
  induction ws with
  | nil => exact absurd rfl h
  | cons w vs ih =>
    cases vs with
    | nil => simp [sumLenPlus, joinWords]
    | cons v ws2 =>
      rw [joinWords_cons_cons, String.length_append, String.length_append]
      have h1 : (" " : String).length = 1 := rfl
      have := ih (by simp)
      simp only [sumLenPlus, List.map_cons, List.sum_cons] at this ⊢
      omega

theorem joinWords_head_le (w1 : String) (rest : List String) :
    w1.length ≤ (joinWords (w1 :: rest)).length := by
  cases rest with
  | nil => exact Nat.le_refl _
  | cons v ws =>
    rw [joinWords_cons_cons, String.length_append, String.length_append]
    omega

/-- Running total of the wrap loop: appending each further word with a
space. -/
def appendWordsFrom (cur : String) (ws : List String) : String :=
  ws.foldl (fun c w => c ++ " " ++ w) cur

theorem joinWords_glue (w r : String) (rs : List String) :
    joinWords ((w ++ " " ++ r) :: rs) = w ++ " " ++ joinWords (r :: rs) := by
  cases rs with
  | nil => rfl
  | cons s ss =>
    simp [joinWords_cons_cons, String.append_assoc]

theorem appendWordsFrom_join (ws : List String) :
    ∀ (x w : String), appendWordsFrom (x ++ w) ws = x ++ joinWords (w :: ws) := by
  induction ws with
  | nil => intro x w; rfl
  | cons r rs ih =>
    intro x w
    show appendWordsFrom ((x ++ w) ++ " " ++ r) rs = _
    rw [String.append_assoc, String.append_assoc, ← String.append_assoc w " " r]
    rw [ih x (w ++ " " ++ r), joinWords_glue]
    rw [joinWords_cons_cons]

theorem rawWrapAux_all_fit (pfx : String) (maxW : Int) :
    ∀ (ws : List String) (cur : String),
      (cur.length : Int) + sumLenPlus ws ≤ maxW →
      pfx.length < cur.length →
      rawWrapAux pfx maxW ws cur = [appendWordsFrom cur ws] := by
  intro ws
  induction ws with
  | nil => intro cur _ _; rfl
  | cons w ws ih =>
    intro cur hlen hgt
    have hsum : (0 : Int) ≤ sumLenPlus ws := by positivity
    have hw : sumLenPlus (w :: ws) = w.length + 1 + sumLenPlus ws := by
      simp [sumLenPlus]
    have hc : ¬ ((cur.length : Int) + w.length + 1 > maxW) := by
      rw [hw] at hlen
      push_cast at hlen
      omega
    rw [rawWrapAux, if_neg hc]
    have hne : (cur == pfx) = false := by
      refine beq_eq_false_iff_ne.mpr (fun heq => ?_)
      rw [heq] at hgt
      exact Nat.lt_irrefl _ hgt
    rw [hne]
    show rawWrapAux pfx maxW ws (cur ++ " " ++ w) = _
    have hlen2 : ((cur ++ " " ++ w).length : Int) + sumLenPlus ws ≤ maxW := by
      rw [String.length_append, String.length_append]
      have h1 : (" " : String).length = 1 := rfl
      rw [hw] at hlen
      push_cast at hlen ⊢
      omega
    have hgt2 : pfx.length < (cur ++ " " ++ w).length := by
      rw [String.length_append, String.length_append]
      omega
    rw [ih (cur ++ " " ++ w) hlen2 hgt2]
    rfl

/-- C9 counterexample: a text of exactly `contentWidth - 2` characters with
an empty prefix fits in one line, yet `wrap` returns two lines (a blank line
followed by the text), because the greedy check reserves one extra character
and counts the prefix twice. -/
theorem wrap_short_text_two_lines :
    ("abcdefgh" : String).length = 10 - 2
      ∧ (wrap 10 "abcdefgh" "").length = 2
      ∧ wrap 10 "abcdefgh" "" ≠ [pad 10 ("" ++ "abcdefgh")] := by
  decide

/-- C9 (amended): `wrap` yields the single padded line `prefix + text`
exactly when the code's stricter fit bound holds
(`2 * prefix.length + text.length + 1 ≤ contentWidth - 2`, the prefix being
counted twice) and the text does not start with a space (leading spaces are
dropped by the accumulator, not reproduced); wrapping is deterministic. -/
theorem wrap_single_line_when_fits (contentWidth : Nat) (text pfx : String)
    (hfit : 2 * (pfx.length : Int) + text.length + 1 ≤ (contentWidth : Int) - 2)
    (hlead : text.data.head? ≠ some ' ') :
    wrap contentWidth text pfx = [pad contentWidth (pfx ++ text)]
      ∧ wrap contentWidth text pfx = wrap contentWidth text pfx := by
  refine ⟨?_, rfl⟩
  unfold wrap rawWrap
  cases hd : text.data with
  | nil =>
    have htext : text = "" := by
      cases text with
      | mk l =>
        simp only at hd
        rw [hd]
    subst htext
    have h0 : ("" : String).length = 0 := rfl
    rw [h0] at hfit
    show (rawWrapAux pfx ((contentWidth : Int) - 2 - pfx.length) [""] pfx).map
        (pad contentWidth) = [pad contentWidth (pfx ++ "")]
    rw [rawWrapAux]
    have hc : ¬ ((pfx.length : Int) + ("" : String).length + 1
        > (contentWidth : Int) - 2 - pfx.length) := by
      rw [h0]
      push_cast
      omega
    rw [if_neg hc, if_pos (beq_self_eq_true pfx)]
    rw [rawWrapAux]
    simp [String.append_empty]
  | cons x xs =>
    have hx : x ≠ ' ' := fun h => hlead (by rw [hd, h]; rfl)
    obtain ⟨w1, rest, hsplit, hw1⟩ :=
      jsSplitSpace_head text x (by rw [hd]; rfl) hx
    have hjoin : joinWords (w1 :: rest) = text := by
      rw [← hsplit]
      exact joinWords_jsSplitSpace text
    rw [hsplit]
    have hw1le : w1.length ≤ text.length := by
      rw [← hjoin]
      exact joinWords_head_le w1 rest
    rw [rawWrapAux]
    have hc : ¬ ((pfx.length : Int) + (w1.length : Int) + 1
        > (contentWidth : Int) - 2 - pfx.length) := by
      omega
    rw [if_neg hc, if_pos (beq_self_eq_true pfx)]
    have hcur : pfx ++ "" ++ w1 = pfx ++ w1 := by
      rw [String.append_empty]
    rw [hcur]
    have hlen : ((pfx ++ w1).length : Int) + sumLenPlus rest
        ≤ (contentWidth : Int) - 2 - pfx.length := by
      rw [String.length_append]
      cases hrest : rest with
      | nil =>
        have htw : text = w1 := by
          rw [← hjoin, hrest]
          rfl
        have hsl : sumLenPlus ([] : List String) = 0 := rfl
        rw [hsl, htw] at *
        push_cast at hfit ⊢
        omega
      | cons r rs =>
        have hsl : sumLenPlus (r :: rs) = (joinWords (r :: rs)).length + 1 :=
          sumLenPlus_of_ne_nil _ (by simp)
        have h1 : (" " : String).length = 1 := rfl
        have htl : text.length = w1.length + 1 + (joinWords (r :: rs)).length := by
          rw [← hjoin, hrest, joinWords_cons_cons, String.length_append,
            String.length_append, h1]
        rw [hsl]
        push_cast at hfit ⊢
        omega
    have hgt : pfx.length < (pfx ++ w1).length := by
      rw [String.length_append]
      omega
    rw [rawWrapAux_all_fit pfx ((contentWidth : Int) - 2 - pfx.length) rest
      (pfx ++ w1) hlen hgt]
    rw [appendWordsFrom_join rest pfx w1, hjoin]
    rfl

theorem wrap_single_line_when_fits_witness :
    wrap 10 "ab" "  " = [pad 10 ("  " ++ "ab")]
      ∧ wrap 10 "ab" "  " = wrap 10 "ab" "  " :=
  wrap_single_line_when_fits 10 "ab" "  " (by decide) (by decide)

/-! ## Box layout widths: claim C1 -/

theorem jsPadEnd_length (s : String) (n : Int) :
    (jsPadEnd s n).length = max s.length n.toNat := by
  unfold jsPadEnd
  by_cases h : (s.length : Int) < n
  · rw [if_pos h, String.length_append]
    show s.length + (List.replicate (n - (s.length : Int)).toNat ' ').length = _
    rw [List.length_replicate]
    omega
  · rw [if_neg h]
    omega

theorem pad_length (contentWidth : Nat) (s : String) :
    (pad contentWidth s).length
      = 1 + max s.length ((contentWidth : Int) - 1).toNat := by
  unfold pad
  rw [String.length_append, jsPadEnd_length]
  rfl

theorem printLine_length (s : String) :
    (printLine s).length = s.length + 2 := by
  unfold printLine
  rw [String.length_append, String.length_append]
  have h1 : ("│" : String).length = 1 := rfl
  omega

theorem printLine_pad_cases (contentWidth : Nat) (s : String) :
    (printLine (pad contentWidth s)).length = contentWidth + 2
      ∨ ((contentWidth : Int) - 1 < s.length
          ∧ (printLine (pad contentWidth s)).length = s.length + 3) := by
  rw [printLine_length, pad_length]
  by_cases h : (s.length : Int) ≤ (contentWidth : Int) - 1
  · left
    omega
  · right
    omega

theorem border_length (a b : String) (contentWidth : Nat)
    (ha : a.length = 1) (hb : b.length = 1) :
    (a ++ String.mk (List.replicate contentWidth '─') ++ b).length
      = contentWidth + 2 := by
  rw [String.length_append, String.length_append]
  have hm : (String.mk (List.replicate contentWidth '─')).length = contentWidth := by
    show (List.replicate contentWidth '─').length = contentWidth
    exact List.length_replicate contentWidth _
  omega

theorem mem_wrap_shape (contentWidth : Nat) (t p : String) :
    ∀ l ∈ (wrap contentWidth t p).map printLine,
      ∃ s, l = printLine (pad contentWidth s) := by
  intro l hl
  unfold wrap at hl
  obtain ⟨a, ha, rfl⟩ := List.mem_map.mp hl
  obtain ⟨b, _, rfl⟩ := List.mem_map.mp ha
  exact ⟨b, rfl⟩

theorem mem_renderDefs_shape (contentWidth : Nat) (ds : List Definition) :
    ∀ i, ∀ l ∈ renderDefs contentWidth i ds,
      ∃ s, l = printLine (pad contentWidth s) := by
  induction ds with
  | nil =>
    intro i l hl
    simp [renderDefs] at hl
  | cons d ds ih =>
    intro i l hl
    rw [renderDefs] at hl
    rcases List.mem_append.mp hl with h12 | h3
    · rcases List.mem_append.mp h12 with h1 | h2
      · exact mem_wrap_shape _ _ _ l h1
      · cases hex : d.«example» with
        | none => rw [hex] at h2; simp at h2
        | some ex =>
          rw [hex] at h2
          exact mem_wrap_shape _ _ _ l h2
    · exact ih (i + 1) l h3

theorem renderMeanings_single (contentWidth : Nat) (m : Meaning) :
    renderMeanings contentWidth [m] = renderMeaning contentWidth m := rfl

theorem renderMeanings_cons_cons (contentWidth : Nat) (m m2 : Meaning)
    (ms : List Meaning) :
    renderMeanings contentWidth (m :: m2 :: ms)
      = renderMeaning contentWidth m ++ [printLine (pad contentWidth "")]
        ++ renderMeanings contentWidth (m2 :: ms) := rfl

theorem mem_renderMeaning_shape (contentWidth : Nat) (m : Meaning) :
    ∀ l ∈ renderMeaning contentWidth m,
      ∃ s, l = printLine (pad contentWidth s) := by
  intro l hl
  rcases List.mem_cons.mp hl with rfl | h2
  · exact ⟨m.partOfSpeech, rfl⟩
  · exact mem_renderDefs_shape contentWidth m.definitions 0 l h2

theorem mem_renderMeanings_shape (contentWidth : Nat) (ms : List Meaning) :
    ∀ l ∈ renderMeanings contentWidth ms,
      ∃ s, l = printLine (pad contentWidth s) := by
  induction ms with
  | nil =>
    intro l hl
    simp [renderMeanings] at hl
  | cons m ms ih =>
    cases ms with
    | nil =>
      intro l hl
      rw [renderMeanings_single] at hl
      exact mem_renderMeaning_shape contentWidth m l hl
    | cons m2 ms2 =>
      intro l hl
      rw [renderMeanings_cons_cons] at hl
      rcases List.mem_append.mp hl with h12 | h3
      · rcases List.mem_append.mp h12 with h1 | h2
        · exact mem_renderMeaning_shape contentWidth m l h1
        · rw [List.mem_singleton] at h2
          exact ⟨"", h2⟩
      · exact ih l h3

theorem mem_renderLines_shape (entry : WordEntry) (contentWidth : Nat) :
    ∀ l ∈ renderLines entry contentWidth,
      l.length = contentWidth + 2
        ∨ ∃ s, l = printLine (pad contentWidth s) := by
  intro l hl
  simp only [renderLines] at hl
  rcases List.mem_append.mp hl with h15 | hb
  rotate_left
  · rw [List.mem_singleton] at hb
    subst hb
    exact Or.inl (border_length _ _ _ rfl rfl)
  rcases List.mem_append.mp h15 with h14 | hT
  rotate_left
  · by_cases hsyn : (synonymsOf entry).isEmpty
    · rw [if_pos hsyn] at hT
      simp at hT
    · rw [if_neg hsyn] at hT
      rcases List.mem_append.mp hT with hT12 | hT3
      · rcases List.mem_append.mp hT12 with hT1 | hT2
        · rw [List.mem_singleton] at hT1
          subst hT1
          exact Or.inl (border_length _ _ _ rfl rfl)
        · rw [List.mem_singleton] at hT2
          exact Or.inr ⟨"Thesaurus", hT2⟩
      · exact Or.inr (mem_wrap_shape _ _ _ l hT3)
  rcases List.mem_append.mp h14 with h13 | hM
  rotate_left
  · exact Or.inr (mem_renderMeanings_shape contentWidth entry.meanings l hM)
  rcases List.mem_append.mp h13 with h12 | hS
  rotate_left
  · rw [List.mem_singleton] at hS
    subst hS
    exact Or.inl (border_length _ _ _ rfl rfl)
  rcases List.mem_append.mp h12 with hTop | hH
  · rw [List.mem_singleton] at hTop
    subst hTop
    exact Or.inl (border_length _ _ _ rfl rfl)
  · rw [List.mem_singleton] at hH
    exact Or.inr ⟨_, hH⟩

/-- Concrete entry whose word is longer than the content width. -/
def overflowEntry : WordEntry :=
  { word := "abcdefghijklmnop", phonetic := "", phonetics := [], meanings := [],
    sourceUrls := [] }

/-- C1 counterexample: an entry whose word (with the two-space separator to
the phonetic text) exceeds `contentWidth - 1` characters yields a header
line longer than `contentWidth + 2`: the box is not uniform for every
entry. -/
theorem renderLines_uniform_width_counterexample :
    ¬ (∀ l ∈ renderLines overflowEntry 10, l.length = 10 + 2) := by
  decide

/-- C1 (amended): content is padded on the right to exactly
`contentWidth - 1` characters whenever it fits, and every rendered line has
total length `contentWidth + 2`, except content lines whose unpadded content
exceeds `contentWidth - 1` characters (an overlong header or an overlong
wrapped word), which are not truncated and have length `content + 3`. -/
theorem renderLines_uniform_width (entry : WordEntry) (contentWidth : Nat) :
    (∀ s : String, (s.length : Int) ≤ (contentWidth : Int) - 1 →
        (pad contentWidth s).length = contentWidth)
      ∧ ∀ l ∈ renderLines entry contentWidth,
          l.length = contentWidth + 2
            ∨ ∃ s, l = printLine (pad contentWidth s)
                ∧ (contentWidth : Int) - 1 < s.length
                ∧ l.length = s.length + 3 := by
  constructor
  · intro s hs
    rw [pad_length]
    omega
  · intro l hl
    rcases mem_renderLines_shape entry contentWidth l hl with hlen | ⟨s, rfl⟩
    · exact Or.inl hlen
    · rcases printLine_pad_cases contentWidth s with h | ⟨h1, h2⟩
      · exact Or.inl h
      · exact Or.inr ⟨s, rfl, h1, h2⟩

theorem renderLines_uniform_width_witness :
    (pad 10 "ab").length = 10
      ∧ (("┌──────────┐" : String).length = 10 + 2
          ∨ ∃ s, ("┌──────────┐" : String) = printLine (pad 10 s)
              ∧ (10 : Int) - 1 < s.length
              ∧ ("┌──────────┐" : String).length = s.length + 3) :=
  ⟨(renderLines_uniform_width sampleEntry 10).1 "ab" (by decide),
   (renderLines_uniform_width sampleEntry 10).2 "┌──────────┐" (by decide)⟩

/-! ## Calendar sanity: `new Date(y, 0, 0)` is December 31 of `y - 1` -/

theorem daysBeforeMonth_twelve (y : Nat) :
    daysBeforeMonth y 12 + 31 = 365 + (if isLeapYear y then 1 else 0) := by
  simp [daysBeforeMonth, daysInMonth]
  by_cases h : isLeapYear y <;> simp [h]

theorem isLeapYear_iff (y : Nat) :
    isLeapYear y = true ↔ (4 ∣ y ∧ (¬ 100 ∣ y ∨ 400 ∣ y)) := by
  unfold isLeapYear
  simp [Nat.dvd_iff_mod_eq_zero]

theorem daysBeforeYear_succ (y : Nat) (hy : 1 ≤ y) :
    daysBeforeYear (y + 1)
      = daysBeforeYear y + 365 + (if isLeapYear y then 1 else 0) := by
  obtain ⟨k, rfl⟩ : ∃ k, y = k + 1 := ⟨y - 1, by omega⟩
  unfold daysBeforeYear
  simp only [Nat.add_sub_cancel]
  rw [Nat.succ_div k 4, Nat.succ_div k 100, Nat.succ_div k 400]
  by_cases d4 : 4 ∣ (k + 1)
  · by_cases d100 : 100 ∣ (k + 1)
    · by_cases d400 : 400 ∣ (k + 1)
      · have hl : isLeapYear (k + 1) = true :=
          (isLeapYear_iff (k + 1)).mpr ⟨d4, Or.inr d400⟩
        rw [if_pos d4, if_pos d100, if_pos d400, if_pos hl]
        have hd : (k + 1) / 100 ≤ (k + 1) / 4 := Nat.div_le_div_left (by omega) (by omega)
        have hd2 : k / 100 ≤ k / 4 := Nat.div_le_div_left (by omega) (by omega)
        omega
      · have hl : isLeapYear (k + 1) = false := by
          rw [← Bool.not_eq_true]
          intro hc
          rcases ((isLeapYear_iff (k + 1)).mp hc).2 with hna | ha
          · exact hna d100
          · exact d400 ha
        rw [if_pos d4, if_pos d100, if_neg d400, if_neg (by simp [hl])]
        have hd : (k + 1) / 100 ≤ (k + 1) / 4 := Nat.div_le_div_left (by omega) (by omega)
        have hd2 : k / 100 ≤ k / 4 := Nat.div_le_div_left (by omega) (by omega)
        omega
    · have d400 : ¬ 400 ∣ (k + 1) := fun h => d100 ((by norm_num : (100:Nat) ∣ 400).trans h)
      have hl : isLeapYear (k + 1) = true :=
        (isLeapYear_iff (k + 1)).mpr ⟨d4, Or.inl d100⟩
      rw [if_pos d4, if_neg d100, if_neg d400, if_pos hl]
      have hd : (k + 1) / 100 ≤ (k + 1) / 4 := Nat.div_le_div_left (by omega) (by omega)
      have hd2 : k / 100 ≤ k / 4 := Nat.div_le_div_left (by omega) (by omega)
      omega
  · have d100 : ¬ 100 ∣ (k + 1) := fun h => d4 ((by norm_num : (4:Nat) ∣ 100).trans h)
    have d400 : ¬ 400 ∣ (k + 1) := fun h => d4 ((by norm_num : (4:Nat) ∣ 400).trans h)
    have hl : isLeapYear (k + 1) = false := by
      rw [← Bool.not_eq_true]
      intro hc
      exact d4 ((isLeapYear_iff (k + 1)).mp hc).1
    rw [if_neg d4, if_neg d100, if_neg d400, if_neg (by simp [hl])]
    have hd : (k + 1) / 100 ≤ (k + 1) / 4 := Nat.div_le_div_left (by omega) (by omega)
    have hd2 : k / 100 ≤ k / 4 := Nat.div_le_div_left (by omega) (by omega)
    omega

/-- Sanity of the `Date` model: `new Date(y, 0, 0)` (month 0, day 0), which
JS normalizes to December 31 of `y - 1`, has the same civil day number as
the explicit December 31 of `y - 1` under the rata-die formula. -/
theorem startOfYear_rollover (y : Nat) (hy : 2 ≤ y) :
    civilDays y 1 0 = civilDays (y - 1) 12 31 := by
  obtain ⟨k, rfl⟩ : ∃ k, y = k + 2 := ⟨y - 2, by omega⟩
  unfold civilDays
  rw [daysBeforeMonth_one]
  have h1 : daysBeforeYear (k + 2)
      = daysBeforeYear (k + 1) + 365 + (if isLeapYear (k + 1) then 1 else 0) :=
    daysBeforeYear_succ (k + 1) (by omega)
  have h2 := daysBeforeMonth_twelve (k + 1)
  have e : k + 2 - 1 = k + 1 := rfl
  rw [e]
  by_cases h : isLeapYear (k + 1) <;> simp [h] at h1 h2 <;> omega
